import Mathlib

/-!
Shallow embedding of the DeepZoomPython repository core, checked against its
natural-language specification.

Embedded code:
* `cucim_py/deepzoom.py` — `DeepZoomGenerator._get_region`, `get_tile`,
  `best_level_for_downsample` (the region mapper and level selector; the
  clipping code in `dz_py/deepzoom.py` `get_tile` lines 129-167 is the same
  algorithm, inlined).
* `server/main.py` — `_SlideCache.get` (LRU cache and annotation),
  `_SlideCache._get_transform` (color transform selector), the mpp
  derivation, the `ignore`-mode tile transform, and the direct
  `_cache[...]` insertion performed by the `slide` route.

Python integers are modelled by `Int`/`Nat`.  The pixel-spacing values and
native downsample factors (Python floats whose uses here are order
comparisons and exact ring operations) are modelled by `ℚ`.  The
floating-point computation of `dzi_level_count` (`math.log` quotients) is
not modelled; theorems take the `maxlevel` of the generator as a parameter.
Python exceptions are modelled with `Except String`.
-/

namespace DeepZoom

/-- Embedding of `math.ceil(a / b)` for integer `a` and positive integer `b`, as used in
`_get_region`: written with truncating division on the shifted numerator
(for the arguments arising in the code the numerator is nonnegative, where
truncating and floor division agree). -/
def iceilDiv (a b : ℤ) : ℤ := (a + b - 1).tdiv b

/-- The `region` dict built by `_get_region`
(`cucim_py/deepzoom.py` lines 179-188): a rectangle in native
full-resolution pixel coordinates. -/
structure Region where
  left : ℤ
  top : ℤ
  right : ℤ
  bottom : ℤ
deriving DecidableEq, Repr

/-- Embedding of `DeepZoomGenerator._get_region` (`cucim_py/deepzoom.py` lines 175-212;
the identical inlined code is `dz_py/deepzoom.py` lines 131-167).
Arguments: `ts` = `self._tile_size`, `o` = `self._tile_overlap`,
`sizeX`/`sizeY` = `self.level_dimensions[0]`, `(col, row)` = `address`,
`lf` = `lfactor`.  `int(region["left"] / lfactor)` is modelled by `Int.tdiv`
(the float quotient is exact there: `left` is a multiple of `lfactor`), and
`math.ceil(float(r) / lfactor)` by `iceilDiv`.  The two `raise ValueError`
branches become `Except.error`. -/
def get_region (ts o sizeX sizeY : ℤ) (col row : ℤ) (lf : ℤ) :
    Except String (Region × ℤ × ℤ) :=
  let left0 : ℤ := (col * ts - o) * lf
  let top0 : ℤ := (row * ts - o) * lf
  let right0 : ℤ := ((col + 1) * ts + o) * lf
  let bottom0 : ℤ := ((row + 1) * ts + o) * lf
  let width1 : ℤ := if left0 < 0 then ts + o * 2 + left0.tdiv lf else ts + o * 2
  let left1 : ℤ := if left0 < 0 then 0 else left0
  let height1 : ℤ := if top0 < 0 then ts + o * 2 + top0.tdiv lf else ts + o * 2
  let top1 : ℤ := if top0 < 0 then 0 else top0
  if sizeX ≤ left1 then .error "x is outside layer"
  else if sizeY ≤ top1 then .error "y is outside layer"
  else
    let right2 : ℤ := if left1 < sizeX ∧ sizeX < right0 then sizeX else right0
    let width2 : ℤ :=
      if left1 < sizeX ∧ sizeX < right0 then iceilDiv (sizeX - left1) lf else width1
    let bottom2 : ℤ := if top1 < sizeY ∧ sizeY < bottom0 then sizeY else bottom0
    let height2 : ℤ :=
      if top1 < sizeY ∧ sizeY < bottom0 then iceilDiv (sizeY - top1) lf else height1
    .ok (⟨left1, top1, right2, bottom2⟩, width2, height2)

/-- Embedding of `DeepZoomGenerator.get_tile` (`cucim_py/deepzoom.py` lines 230-254),
up to the pixel contents of the produced image: the level check, the
`lfactor` computation, and the `_get_region` call.  The function returns
the clipped region together with `(width, height)`; the final
`.resize((width, height), ...)` of the source makes these exactly the
pixel dimensions of the returned image.  `maxlevel` stands for
`self.dzi_level_count`. -/
def get_tile (ts o sizeX sizeY : ℤ) (maxlevel level : ℤ) (col row : ℤ) :
    Except String (Region × ℤ × ℤ) :=
  if level < 1 ∨ maxlevel < level then
    .error "level must be between 1 and the image scale"
  else get_region ts o sizeX sizeY col row (2 ^ (maxlevel - level).toNat)

theorem iceilDiv_mul_self {w b : ℤ} (hw : 0 ≤ w) (hb : 1 ≤ b) :
    iceilDiv (w * b) b = w := by
  have hb0 : (0 : ℤ) ≤ b := by omega
  have hnum : (0 : ℤ) ≤ w * b + b - 1 := by nlinarith
  have : w * b + b - 1 = (b - 1) + w * b := by ring
  rw [iceilDiv, Int.tdiv_eq_ediv hnum hb0, this,
    Int.add_mul_ediv_right _ _ (by omega : b ≠ 0),
    Int.ediv_eq_zero_of_lt (by omega) (by omega), zero_add]

theorem iceilDiv_pos {a b : ℤ} (ha : 1 ≤ a) (hb : 1 ≤ b) :
    1 ≤ iceilDiv a b := by
  have hnum : (0 : ℤ) ≤ a + b - 1 := by omega
  rw [iceilDiv, Int.tdiv_eq_ediv hnum (by omega)]
  calc (1 : ℤ) = b / b := (Int.ediv_self (by omega)).symm
    _ ≤ (a + b - 1) / b := Int.ediv_le_ediv (by omega) (by omega)

theorem iceilDiv_le {a b w : ℤ} (ha : 0 ≤ a) (hb : 1 ≤ b) (h : a ≤ w * b) :
    iceilDiv a b ≤ w := by
  have hnum : (0 : ℤ) ≤ a + b - 1 := by omega
  rw [iceilDiv, Int.tdiv_eq_ediv hnum (by omega)]
  calc (a + b - 1) / b ≤ ((b - 1) + w * b) / b :=
        Int.ediv_le_ediv (by omega) (by omega)
    _ = (b - 1) / b + w := Int.add_mul_ediv_right _ _ (by omega)
    _ = w := by rw [Int.ediv_eq_zero_of_lt (by omega) (by omega), zero_add]

/-- The per-axis facts of the clipping step of `_get_region`.  `A` is the
clamped left (top) edge, `W1` the width after the left-edge adjustment,
`B` the final right (bottom) edge, and `W` the final width (height). -/
theorem axis_spec (ts o c lf size A W1 B W : ℤ)
    (hts : 1 ≤ ts) (ho : 0 ≤ o) (hc : 0 ≤ c) (hlf : 1 ≤ lf)
    (hA : A = if (c * ts - o) * lf < 0 then 0 else (c * ts - o) * lf)
    (hW1 : W1 = if (c * ts - o) * lf < 0 then
        ts + o * 2 + ((c * ts - o) * lf).tdiv lf else ts + o * 2)
    (hB : B = if A < size ∧ size < ((c + 1) * ts + o) * lf then size
        else ((c + 1) * ts + o) * lf)
    (hW : W = if A < size ∧ size < ((c + 1) * ts + o) * lf then
        iceilDiv (size - A) lf else W1)
    (hin : A < size) :
    0 ≤ A ∧ A < B ∧ B ≤ size ∧ W = iceilDiv (B - A) lf ∧
      1 ≤ W ∧ W ≤ ts + o * 2 ∧
      W = (if size < ((c + 1) * ts + o) * lf then iceilDiv (size - A) lf
           else ts + o * 2 + min (c * ts - o) 0) := by
  have hlf0 : (0 : ℤ) < lf := by omega
  by_cases h0 : (c * ts - o) * lf < 0
  · -- left/top clipped
    have hneg : c * ts - o < 0 := by nlinarith
    have htd : ((c * ts - o) * lf).tdiv lf = c * ts - o :=
      Int.mul_tdiv_cancel _ (by omega)
    have hAe : A = 0 := by rw [hA, if_pos h0]
    have hW1e : W1 = (c + 1) * ts + o := by rw [hW1, if_pos h0, htd]; ring
    have hW1pos : 1 ≤ W1 := by rw [hW1e]; nlinarith
    have hW1le : W1 ≤ ts + o * 2 := by rw [hW1e]; nlinarith
    have hB0 : ((c + 1) * ts + o) * lf = W1 * lf := by rw [hW1e]
    subst hAe
    by_cases h2 : (0 : ℤ) < size ∧ size < ((c + 1) * ts + o) * lf
    · have hc2 : size < ((c + 1) * ts + o) * lf := h2.2
      have hBe : B = size := by rw [hB, if_pos h2]
      have hWe : W = iceilDiv (size - 0) lf := by rw [hW, if_pos h2]
      refine ⟨le_refl 0, ?_, ?_, ?_, ?_, ?_, ?_⟩
      · omega
      · omega
      · rw [hWe, hBe]
      · rw [hWe]; exact iceilDiv_pos (by omega) hlf
      · rw [hWe]
        exact iceilDiv_le (by omega) hlf (by nlinarith)
      · rw [hWe, if_pos hc2]
    · have hc2 : ¬ size < ((c + 1) * ts + o) * lf := by
        intro h; exact h2 ⟨hin, h⟩
      have hBe : B = ((c + 1) * ts + o) * lf := by rw [hB, if_neg h2]
      have hWe : W = W1 := by rw [hW, if_neg h2]
      refine ⟨le_refl 0, ?_, ?_, ?_, ?_, ?_, ?_⟩
      · rw [hBe, hB0]; nlinarith
      · omega
      · rw [hWe, hBe, hB0, sub_zero, iceilDiv_mul_self (by omega) hlf]
      · omega
      · omega
      · rw [hWe, if_neg hc2, hW1e]; omega
  · -- not clipped on the left/top
    have hnn : 0 ≤ c * ts - o := by nlinarith
    have hAe : A = (c * ts - o) * lf := by rw [hA, if_neg h0]
    have hW1e : W1 = ts + o * 2 := by rw [hW1, if_neg h0]
    have hB0 : ((c + 1) * ts + o) * lf - A = (ts + o * 2) * lf := by
      rw [hAe]; ring
    by_cases h2 : A < size ∧ size < ((c + 1) * ts + o) * lf
    · have hc2 : size < ((c + 1) * ts + o) * lf := h2.2
      have hBe : B = size := by rw [hB, if_pos h2]
      have hWe : W = iceilDiv (size - A) lf := by rw [hW, if_pos h2]
      refine ⟨by omega, by omega, by omega, by rw [hWe, hBe], ?_, ?_, ?_⟩
      · rw [hWe]; exact iceilDiv_pos (by omega) hlf
      · rw [hWe]
        exact iceilDiv_le (by omega) hlf (by nlinarith)
      · rw [hWe, if_pos hc2]
    · have hc2 : ¬ size < ((c + 1) * ts + o) * lf := by
        intro h; exact h2 ⟨hin, h⟩
      have hBe : B = ((c + 1) * ts + o) * lf := by rw [hB, if_neg h2]
      have hWe : W = W1 := by rw [hW, if_neg h2]
      have hwlf : (0 : ℤ) < (ts + o * 2) * lf := by nlinarith
      refine ⟨by omega, by omega, by omega, ?_, by omega, by omega, ?_⟩
      · rw [hWe, hBe, hB0, hW1e, iceilDiv_mul_self (by omega) hlf]
      · rw [hWe, if_neg hc2, hW1e]; omega

/-- C2.  For every tile address and `lfactor` for which `_get_region`
does not raise an out-of-bounds error, the returned region satisfies
`0 ≤ left < right ≤ sizeX` and `0 ≤ top < bottom ≤ sizeY`, and the
returned `width`/`height` are the exact positive pixel dimensions of that
region after downsampling by `lfactor` (its ceiling-divided extents). -/
theorem get_region_bounds (ts o sizeX sizeY col row lf : ℤ)
    (hts : 1 ≤ ts) (ho : 0 ≤ o) (hcol : 0 ≤ col) (hrow : 0 ≤ row)
    (hlf : 1 ≤ lf) (r : Region) (w h : ℤ)
    (heq : get_region ts o sizeX sizeY col row lf = .ok (r, w, h)) :
    0 ≤ r.left ∧ r.left < r.right ∧ r.right ≤ sizeX ∧
    0 ≤ r.top ∧ r.top < r.bottom ∧ r.bottom ≤ sizeY ∧
    w = iceilDiv (r.right - r.left) lf ∧ 1 ≤ w ∧
    h = iceilDiv (r.bottom - r.top) lf ∧ 1 ≤ h := by
  simp only [get_region] at heq
  by_cases hgx :
      sizeX ≤ (if (col * ts - o) * lf < 0 then 0 else (col * ts - o) * lf)
  · rw [if_pos hgx] at heq; exact absurd heq (by simp)
  rw [if_neg hgx] at heq
  by_cases hgy :
      sizeY ≤ (if (row * ts - o) * lf < 0 then 0 else (row * ts - o) * lf)
  · rw [if_pos hgy] at heq; exact absurd heq (by simp)
  rw [if_neg hgy] at heq
  simp only [Except.ok.injEq, Prod.mk.injEq] at heq
  obtain ⟨hr, hw, hh⟩ := heq
  subst hr hw hh
  obtain ⟨hx1, hx2, hx3, hx4, hx5, hx6, -⟩ :=
    axis_spec ts o col lf sizeX _ _ _ _ hts ho hcol hlf rfl rfl rfl rfl
      (by omega)
  obtain ⟨hy1, hy2, hy3, hy4, hy5, hy6, -⟩ :=
    axis_spec ts o row lf sizeY _ _ _ _ hts ho hrow hlf rfl rfl rfl rfl
      (by omega)
  exact ⟨hx1, hx2, hx3, hy1, hy2, hy3, hx4, hx5, hy4, hy5⟩

/-- Witness for `get_region_bounds` at `tile_size = 254`, `overlap = 1`,
a 1000 × 800 image, tile `(1, 0)`, `lfactor = 2`. -/
theorem get_region_bounds_witness :
    ∃ r : Region, ∃ w h : ℤ,
      get_region 254 1 1000 800 1 0 2 = .ok (r, w, h) ∧
      (0 ≤ r.left ∧ r.left < r.right ∧ r.right ≤ 1000 ∧
       0 ≤ r.top ∧ r.top < r.bottom ∧ r.bottom ≤ 800 ∧
       w = iceilDiv (r.right - r.left) 2 ∧ 1 ≤ w ∧
       h = iceilDiv (r.bottom - r.top) 2 ∧ 1 ≤ h) := by
  refine ⟨⟨506, 0, 1000, 510⟩, 247, 255, rfl, ?_⟩
  exact get_region_bounds 254 1 1000 800 1 0 2 (by decide) (by decide)
    (by decide) (by decide) (by decide) ⟨506, 0, 1000, 510⟩ 247 255 rfl

/-- C1, counterexample.  For a 512 × 512 image with `tile_size = 254`,
`overlap = 1`, `maxlevel = 9`, the tile at `level = 9`, address `(0, 0)`
does not touch the right or bottom image edge (its region is
`[0, 255) × [0, 255)` inside `512 × 512`), yet the image returned by
`get_tile` is 255 × 255, not `tile_size + 2·overlap = 256`: the claimed
"dimensions equal tile_size + 2·overlap except for right/bottom-edge
tiles" fails on tiles clipped at the left/top edge. -/
theorem get_tile_edge_counterexample :
    get_tile 254 1 512 512 9 9 0 0 = .ok (⟨0, 0, 255, 255⟩, 255, 255) ∧
    (255 : ℤ) < 512 ∧ (255 : ℤ) ≠ 254 + 2 * 1 := by
  refine ⟨rfl, by decide, by decide⟩

/-- C1, amended.  For every valid in-bounds tile address, the image
returned by `get_tile` has width `tile_size + 2·overlap` diminished by
the left clip amount `overlap - col·tile_size` when that is positive
(`col = 0` under the default configuration), except that a tile whose raw
right edge passes the image edge instead gets exactly
`ceil((clamped_edge - left) / lfactor)` as computed by the clipping step;
in all cases `1 ≤ width ≤ tile_size + 2·overlap`.  Height behaves
symmetrically in `row`. -/
theorem get_tile_dims (ts o sizeX sizeY maxlevel level col row lf : ℤ)
    (hts : 1 ≤ ts) (ho : 0 ≤ o) (hcol : 0 ≤ col) (hrow : 0 ≤ row)
    (hlf : lf = 2 ^ (maxlevel - level).toNat) (r : Region) (w h : ℤ)
    (heq : get_tile ts o sizeX sizeY maxlevel level col row = .ok (r, w, h)) :
    w = (if sizeX < ((col + 1) * ts + o) * lf then iceilDiv (sizeX - r.left) lf
         else ts + o * 2 + min (col * ts - o) 0) ∧
    h = (if sizeY < ((row + 1) * ts + o) * lf then iceilDiv (sizeY - r.top) lf
         else ts + o * 2 + min (row * ts - o) 0) ∧
    1 ≤ w ∧ w ≤ ts + o * 2 ∧ 1 ≤ h ∧ h ≤ ts + o * 2 := by
  have hlf1 : 1 ≤ lf := by
    have := pow_pos (by norm_num : (0 : ℤ) < 2) (maxlevel - level).toNat
    omega
  subst hlf
  rw [get_tile] at heq
  by_cases hlev : level < 1 ∨ maxlevel < level
  · rw [if_pos hlev] at heq; exact absurd heq (by simp)
  rw [if_neg hlev] at heq
  simp only [get_region] at heq
  by_cases hgx : sizeX ≤ (if (col * ts - o) * (2 ^ (maxlevel - level).toNat : ℤ) < 0
      then 0 else (col * ts - o) * (2 ^ (maxlevel - level).toNat : ℤ))
  · rw [if_pos hgx] at heq; exact absurd heq (by simp)
  rw [if_neg hgx] at heq
  by_cases hgy : sizeY ≤ (if (row * ts - o) * (2 ^ (maxlevel - level).toNat : ℤ) < 0
      then 0 else (row * ts - o) * (2 ^ (maxlevel - level).toNat : ℤ))
  · rw [if_pos hgy] at heq; exact absurd heq (by simp)
  rw [if_neg hgy] at heq
  simp only [Except.ok.injEq, Prod.mk.injEq] at heq
  obtain ⟨hr, hw, hh⟩ := heq
  subst hr hw hh
  obtain ⟨-, -, -, -, hx5, hx6, hx7⟩ :=
    axis_spec ts o col (2 ^ (maxlevel - level).toNat) sizeX _ _ _ _
      hts ho hcol hlf1 rfl rfl rfl rfl (by omega)
  obtain ⟨-, -, -, -, hy5, hy6, hy7⟩ :=
    axis_spec ts o row (2 ^ (maxlevel - level).toNat) sizeY _ _ _ _
      hts ho hrow hlf1 rfl rfl rfl rfl (by omega)
  exact ⟨hx7, hy7, hx5, hx6, hy5, hy6⟩

/-- Witness for `get_tile_dims` at the 512 × 512 configuration of the
counterexample: the left/top-clipped corner tile gets width
`256 + min (0·254 - 1) 0 = 255`. -/
theorem get_tile_dims_witness :
    (255 : ℤ) = (if (512 : ℤ) < ((0 + 1) * 254 + 1) * 1 then
         iceilDiv (512 - (0 : ℤ)) 1 else 254 + 1 * 2 + min (0 * 254 - 1) 0) ∧
    (255 : ℤ) = (if (512 : ℤ) < ((0 + 1) * 254 + 1) * 1 then
         iceilDiv (512 - (0 : ℤ)) 1 else 254 + 1 * 2 + min (0 * 254 - 1) 0) ∧
    (1 : ℤ) ≤ 255 ∧ (255 : ℤ) ≤ 254 + 1 * 2 ∧
    (1 : ℤ) ≤ 255 ∧ (255 : ℤ) ≤ 254 + 1 * 2 :=
  get_tile_dims 254 1 512 512 9 9 0 0 1 (by decide) (by decide) (by decide)
    (by decide) (by decide) ⟨0, 0, 255, 255⟩ 255 255 rfl

/-- Python `list.index(v)` (first index of `v`, `ValueError` modelled as
`none`), as called by `best_level_for_downsample`. -/
def list_index (v : ℚ) : List ℚ → Option Nat
  | [] => none
  | d :: ds => if d = v then some 0 else (list_index v ds).map (· + 1)

/-- The accumulator loop of `best_level_for_downsample`
(`cucim_py/deepzoom.py` lines 158-161): `max_downsample = 0`, then for
each `d` in `level_downsamples`, `if d < downsample: max_downsample = d`. -/
def maxDownsampleLoop (level_downsamples : List ℚ) (downsample : ℚ) : ℚ :=
  level_downsamples.foldl (fun acc d => if d < downsample then d else acc) 0

/-- Embedding of `DeepZoomGenerator.best_level_for_downsample`
(`cucim_py/deepzoom.py` lines 143-167): run the accumulator loop, then
`self.level_downsamples.index(max_downsample)`; any exception from
`.index` is caught and `0` returned. -/
def best_level_for_downsample (level_downsamples : List ℚ)
    (downsample : ℚ) : Nat :=
  match list_index (maxDownsampleLoop level_downsamples downsample)
      level_downsamples with
  | some i => i
  | none => 0

theorem list_index_of_mem {v : ℚ} {ds : List ℚ} (hv : v ∈ ds) :
    ∃ i, list_index v ds = some i ∧ i < ds.length ∧ ds.getD i 0 = v := by
  induction ds with
  | nil => cases hv
  | cons d ds ih =>
    by_cases hd : d = v
    · exact ⟨0, by simp [list_index, hd], by simp, by simp [hd]⟩
    · have hv' : v ∈ ds := by
        rcases List.mem_cons.mp hv with h | h
        · exact absurd h.symm hd
        · exact h
      obtain ⟨i, h1, h2, h3⟩ := ih hv'
      refine ⟨i + 1, by simp [list_index, hd, h1], by simp; omega, ?_⟩
      rw [List.getD_cons_succ]; exact h3

theorem list_index_of_not_mem {v : ℚ} {ds : List ℚ} (hv : v ∉ ds) :
    list_index v ds = none := by
  induction ds with
  | nil => rfl
  | cons d ds ih =>
    simp only [List.mem_cons, not_or] at hv
    have hd : ¬ d = v := fun h => hv.1 h.symm
    simp [list_index, hd, ih hv.2]

theorem loop_const (t : ℚ) :
    ∀ (ds : List ℚ) (a : ℚ), (∀ x ∈ ds, ¬ x < t) →
      ds.foldl (fun acc d => if d < t then d else acc) a = a := by
  intro ds
  induction ds with
  | nil => intro a _; rfl
  | cons d ds ih =>
    intro a hno
    have hd : ¬ d < t := hno d (by simp)
    simp only [List.foldl_cons, if_neg hd]
    exact ih a (fun x hx => hno x (by simp [hx]))

theorem loop_init_or (t : ℚ) :
    ∀ (ds : List ℚ) (a : ℚ),
      ds.foldl (fun acc d => if d < t then d else acc) a = a ∨
      (ds.foldl (fun acc d => if d < t then d else acc) a ∈ ds ∧
        ds.foldl (fun acc d => if d < t then d else acc) a < t) := by
  intro ds
  induction ds with
  | nil => intro a; exact Or.inl rfl
  | cons d ds ih =>
    intro a
    simp only [List.foldl_cons]
    by_cases hd : d < t
    · rw [if_pos hd]
      rcases ih d with h | h
      · exact Or.inr ⟨by simp [h], by rwa [h]⟩
      · exact Or.inr ⟨by simp [h.1], h.2⟩
    · rw [if_neg hd]
      rcases ih a with h | h
      · exact Or.inl h
      · exact Or.inr ⟨by simp [h.1], h.2⟩

theorem loop_mem_lt (t : ℚ) :
    ∀ (ds : List ℚ) (a : ℚ), (∃ x ∈ ds, x < t) →
      ds.foldl (fun acc d => if d < t then d else acc) a ∈ ds ∧
      ds.foldl (fun acc d => if d < t then d else acc) a < t := by
  intro ds
  induction ds with
  | nil => rintro a ⟨x, hx, -⟩; cases hx
  | cons d ds ih =>
    intro a hex
    simp only [List.foldl_cons]
    by_cases hd : d < t
    · rw [if_pos hd]
      rcases loop_init_or t ds d with h | h
      · exact ⟨by simp [h], by rwa [h]⟩
      · exact ⟨by simp [h.1], h.2⟩
    · rw [if_neg hd]
      have hex' : ∃ x ∈ ds, x < t := by
        rcases hex with ⟨x, hx, hxt⟩
        rcases List.mem_cons.mp hx with h | h
        · exact absurd (h ▸ hxt) hd
        · exact ⟨x, h, hxt⟩
      obtain ⟨h1, h2⟩ := ih a hex'
      exact ⟨by simp [h1], h2⟩

theorem loop_max (t : ℚ) :
    ∀ (ds : List ℚ) (a : ℚ), ds.Pairwise (· ≤ ·) →
      ∀ x ∈ ds, x < t →
        x ≤ ds.foldl (fun acc d => if d < t then d else acc) a := by
  intro ds
  induction ds with
  | nil => intro a _ x hx; cases hx
  | cons d ds ih =>
    intro a hpw x hx hxt
    have hpw' := (List.pairwise_cons.mp hpw).2
    have hdle := (List.pairwise_cons.mp hpw).1
    simp only [List.foldl_cons]
    rcases List.mem_cons.mp hx with h | h
    · subst h
      rw [if_pos hxt]
      rcases loop_init_or t ds x with he | he
      · exact le_of_eq he.symm
      · exact hdle _ he.1
    · by_cases hd : d < t
      · rw [if_pos hd]; exact ih d hpw' x h hxt
      · rw [if_neg hd]; exact ih a hpw' x h hxt

/-- Shared content of C5: when some native downsample is strictly below
the target, `best_level_for_downsample` returns an in-range index whose
downsample is the largest downsample strictly below the target. -/
theorem best_level_spec_lt {ds : List ℚ} {t : ℚ}
    (hs : ds.Pairwise (· ≤ ·)) (hex : ∃ x ∈ ds, x < t) :
    best_level_for_downsample ds t < ds.length ∧
    ds.getD (best_level_for_downsample ds t) 0 < t ∧
    ∀ x ∈ ds, x < t → x ≤ ds.getD (best_level_for_downsample ds t) 0 := by
  obtain ⟨hmem, hlt⟩ := loop_mem_lt t ds 0 hex
  obtain ⟨i, h1, h2, h3⟩ := list_index_of_mem hmem
  have hbest : best_level_for_downsample ds t = i := by
    rw [best_level_for_downsample, maxDownsampleLoop, h1]
  rw [hbest, h3]
  exact ⟨h2, hlt, loop_max t ds 0 hs⟩

/-- Shared content of C5: when no native downsample is strictly below the
target, the accumulator of the loop stays `0`, which (all downsamples being
positive) is not in the list, so `.index` raises and the handler returns
native level `0`. -/
theorem best_level_spec_none {ds : List ℚ} {t : ℚ}
    (hpos : ∀ x ∈ ds, 0 < x) (hno : ∀ x ∈ ds, ¬ x < t) :
    best_level_for_downsample ds t = 0 := by
  have hloop : maxDownsampleLoop ds t = 0 := loop_const t ds 0 hno
  have h0 : (0 : ℚ) ∉ ds := fun h => absurd (hpos 0 h) (by norm_num)
  rw [best_level_for_downsample, hloop, list_index_of_not_mem h0]

/-- C5.  With the native downsample list sorted ascending (and all
downsamples positive, as in any well-formed level list),
`best_level_for_downsample` returns the index of a level whose downsample
is the largest native downsample strictly less than the requested factor;
if no native downsample is strictly less, it returns native level `0`. -/
theorem best_level_for_downsample_spec (ds : List ℚ) (t : ℚ)
    (hs : ds.Pairwise (· ≤ ·)) (hpos : ∀ x ∈ ds, 0 < x) :
    ((∃ x ∈ ds, x < t) →
      best_level_for_downsample ds t < ds.length ∧
      ds.getD (best_level_for_downsample ds t) 0 < t ∧
      ∀ x ∈ ds, x < t → x ≤ ds.getD (best_level_for_downsample ds t) 0) ∧
    ((∀ x ∈ ds, ¬ x < t) → best_level_for_downsample ds t = 0) :=
  ⟨fun hex => best_level_spec_lt hs hex,
   fun hno => best_level_spec_none hpos hno⟩

/-- Witness for `best_level_for_downsample_spec` on the level list
`[1, 4, 16]`: target `8` selects index 1 (downsample 4), and target `1/2`
(below every native downsample) selects level 0. -/
theorem best_level_for_downsample_spec_witness :
    (((∃ x ∈ [(1 : ℚ), 4, 16], x < 8) →
      best_level_for_downsample [(1 : ℚ), 4, 16] 8 < 3 ∧
      [(1 : ℚ), 4, 16].getD (best_level_for_downsample [(1 : ℚ), 4, 16] 8) 0 < 8 ∧
      ∀ x ∈ [(1 : ℚ), 4, 16], x < 8 →
        x ≤ [(1 : ℚ), 4, 16].getD (best_level_for_downsample [(1 : ℚ), 4, 16] 8) 0) ∧
    ((∀ x ∈ [(1 : ℚ), 4, 16], ¬ x < 8) →
      best_level_for_downsample [(1 : ℚ), 4, 16] 8 = 0)) ∧
    best_level_for_downsample [(1 : ℚ), 4, 16] (1 / 2) = 0 := by
  constructor
  · exact best_level_for_downsample_spec [(1 : ℚ), 4, 16] 8
      (by norm_num) (by norm_num)
  · exact (best_level_for_downsample_spec [(1 : ℚ), 4, 16] (1 / 2)
      (by norm_num) (by norm_num)).2 (by norm_num)

/-- C6.  `best_level_for_downsample` is monotone: for a sorted, positive,
nonempty native downsample list and target factors `t1 ≤ t2`, the
downsample of the level selected for `t2` is never smaller than the one
selected for `t1`. -/
theorem best_level_for_downsample_mono (ds : List ℚ) (t1 t2 : ℚ)
    (hs : ds.Pairwise (· ≤ ·)) (hpos : ∀ x ∈ ds, 0 < x)
    (hne : ds ≠ []) (h12 : t1 ≤ t2) :
    ds.getD (best_level_for_downsample ds t1) 0 ≤
      ds.getD (best_level_for_downsample ds t2) 0 := by
  by_cases h1 : ∃ x ∈ ds, x < t1
  · obtain ⟨hb1, hlt1, -⟩ := best_level_spec_lt hs h1
    have hmem1 : ds.getD (best_level_for_downsample ds t1) 0 ∈ ds := by
      rw [List.getD_eq_getElem ds 0 hb1]; exact List.getElem_mem hb1
    have h2 : ∃ x ∈ ds, x < t2 := by
      rcases h1 with ⟨x, hx, hxt⟩; exact ⟨x, hx, lt_of_lt_of_le hxt h12⟩
    obtain ⟨-, -, hmax2⟩ := best_level_spec_lt hs h2
    exact hmax2 _ hmem1 (lt_of_lt_of_le hlt1 h12)
  · push_neg at h1
    have hb1 : best_level_for_downsample ds t1 = 0 :=
      best_level_spec_none hpos (fun x hx => not_lt.mpr (h1 x hx))
    obtain ⟨d, tl, rfl⟩ := List.exists_cons_of_ne_nil hne
    rw [hb1]
    by_cases h2 : ∃ x ∈ d :: tl, x < t2
    · obtain ⟨hb2, -, -⟩ := best_level_spec_lt hs h2
      have hmem2 : (d :: tl).getD (best_level_for_downsample (d :: tl) t2) 0
          ∈ d :: tl := by
        rw [List.getD_eq_getElem _ 0 hb2]; exact List.getElem_mem hb2
      have hdle := (List.pairwise_cons.mp hs).1
      have hhead : (d :: tl).getD 0 0 = d := rfl
      rw [hhead]
      rcases List.mem_cons.mp hmem2 with h | h
      · rw [h]
      · exact hdle _ h
    · push_neg at h2
      rw [best_level_spec_none hpos (fun x hx => not_lt.mpr (h2 x hx))]

/-- Witness for `best_level_for_downsample_mono` on `[1, 4, 16]` with
targets `3 ≤ 20`. -/
theorem best_level_for_downsample_mono_witness :
    [(1 : ℚ), 4, 16].getD (best_level_for_downsample [(1 : ℚ), 4, 16] 3) 0 ≤
      [(1 : ℚ), 4, 16].getD (best_level_for_downsample [(1 : ℚ), 4, 16] 20) 0 :=
  best_level_for_downsample_mono [(1 : ℚ), 4, 16] 3 20
    (by norm_num) (by norm_num) (by simp) (by norm_num)

/-!
### Slide handle cache (`server/main.py`, `_SlideCache`)

The cache is an `OrderedDict` keyed by path; only the key order matters
for the LRU behaviour, so a cache state is modelled as the list of keys in
order, least recently used first.  `_SlideCache.get` (lines 81-113) run as
one step of a sequential call sequence (nothing intervenes between its two
lock sections) is: on hit, move the key to the most-recently-used end; on
miss, evict the first key when `len(self._cache) == self.cache_size`
(exact equality in the source), then append the new key.  With
`cache_size = 0` the `popitem` in the source on an empty dict would raise; the
theorems below assume `1 ≤ cache_size` (the default is 30).
-/

/-- One sequential `_SlideCache.get` call, key order only. -/
def lruGet (cache_size : Nat) (s : List Nat) (p : Nat) : List Nat :=
  if p ∈ s then s.erase p ++ [p]
  else (if s.length = cache_size then s.drop 1 else s) ++ [p]

/-- A sequence of sequential `_SlideCache.get` calls. -/
def lruRun (cache_size : Nat) (s : List Nat) (ps : List Nat) : List Nat :=
  ps.foldl (lruGet cache_size) s

/-- The direct mutation performed by the `slide` route,
`app.cache._cache[image_path] = ...` (`server/main.py` lines 308-313):
a plain `OrderedDict` assignment, which replaces in place when the key is
present and otherwise appends at the most-recently-used end — bypassing
the eviction logic of `get` entirely. -/
def raw_insert (s : List Nat) (p : Nat) : List Nat :=
  if p ∈ s then s else s ++ [p]

theorem lruGet_length_le {cache_size : Nat} {s : List Nat} (p : Nat)
    (hsz : 1 ≤ cache_size) (hs : s.length ≤ cache_size) :
    (lruGet cache_size s p).length ≤ cache_size := by
  rw [lruGet]
  by_cases hp : p ∈ s
  · rw [if_pos hp]
    have he := List.length_erase_of_mem hp
    have hpos : 1 ≤ s.length := List.length_pos.mpr (List.ne_nil_of_mem hp)
    simp only [List.length_append, List.length_cons, List.length_nil, he]
    omega
  · rw [if_neg hp]
    by_cases hfull : s.length = cache_size
    · rw [if_pos hfull]
      simp only [List.length_append, List.length_drop, List.length_cons,
        List.length_nil]
      omega
    · rw [if_neg hfull]
      simp only [List.length_append, List.length_cons, List.length_nil]
      omega

theorem lruRun_length_le {cache_size : Nat} (hsz : 1 ≤ cache_size) :
    ∀ (ps s : List Nat), s.length ≤ cache_size →
      (lruRun cache_size s ps).length ≤ cache_size := by
  intro ps
  induction ps with
  | nil => intro s hs; exact hs
  | cons q ps ih => intro s hs; exact ih _ (lruGet_length_le q hsz hs)

/-- From the empty cache, a duplicate-free sequence of `get` calls leaves
exactly the last `cache_size` keys, in access order: pure LRU. -/
theorem lruRun_nodup_eq {cache_size : Nat} (hsz : 1 ≤ cache_size) :
    ∀ ps : List Nat, ps.Nodup →
      lruRun cache_size [] ps = ps.drop (ps.length - cache_size) := by
  intro ps
  induction ps using List.reverseRecOn with
  | nil => intro _; simp [lruRun]
  | append_singleton ps p ih =>
    intro hnd
    rw [List.nodup_append] at hnd
    obtain ⟨hnps, -, hdisj⟩ := hnd
    have hpps : p ∉ ps := fun h => hdisj h (by simp)
    have hstep : lruRun cache_size [] (ps ++ [p]) =
        lruGet cache_size (lruRun cache_size [] ps) p := by
      simp [lruRun, List.foldl_append]
    have hpdrop : p ∉ ps.drop (ps.length - cache_size) :=
      fun h => hpps (List.drop_subset _ _ h)
    rw [hstep, ih hnps, lruGet, if_neg hpdrop]
    have hlen : (ps.drop (ps.length - cache_size)).length =
        ps.length - (ps.length - cache_size) := List.length_drop _ _
    by_cases hfull : (ps.drop (ps.length - cache_size)).length = cache_size
    · have hle : cache_size ≤ ps.length := by omega
      rw [if_pos hfull, List.drop_drop,
        List.length_append, List.length_cons, List.length_nil,
        List.drop_append_of_le_length
          (show ps.length + 1 - cache_size ≤ ps.length by omega),
        show ps.length - cache_size + 1 = ps.length + 1 - cache_size by omega]
    · have hlt : ps.length < cache_size := by omega
      have h0 : ps.length - cache_size = 0 := by omega
      rw [if_neg hfull, h0, List.drop_zero,
        List.length_append, List.length_cons, List.length_nil]
      have h1 : ps.length + 1 - cache_size = 0 := by omega
      rw [h1, List.drop_zero]

/-- C3.  Starting from the empty cache, after any sequence of sequential
`_SlideCache.get` calls the cache holds at most `cache_size` entries;
on a duplicate-free sequence the surviving keys are exactly the last
`cache_size` accessed (pure LRU), so after getting `cache_size + 1`
distinct paths the first-inserted path is no longer present. -/
theorem slide_cache_lru (cache_size : Nat) (ps qs rest : List Nat) (p : Nat)
    (hsz : 1 ≤ cache_size) (hqs : qs.Nodup) (hnd : (p :: rest).Nodup)
    (hlen : (p :: rest).length = cache_size + 1) :
    (lruRun cache_size [] ps).length ≤ cache_size ∧
    lruRun cache_size [] qs = qs.drop (qs.length - cache_size) ∧
    p ∉ lruRun cache_size [] (p :: rest) := by
  refine ⟨lruRun_length_le hsz ps [] (by simp),
    lruRun_nodup_eq hsz qs hqs, ?_⟩
  rw [lruRun_nodup_eq hsz _ hnd, hlen, Nat.add_sub_cancel_left]
  exact (List.nodup_cons.mp hnd).1

/-- Witness for `slide_cache_lru`: `cache_size = 2`, an arbitrary access
sequence, and the three distinct paths `4, 5, 6`. -/
theorem slide_cache_lru_witness :
    (lruRun 2 [] [7, 8, 7, 9]).length ≤ 2 ∧
    lruRun 2 [] [1, 2, 3] = [1, 2, 3].drop ([1, 2, 3].length - 2) ∧
    4 ∉ lruRun 2 [] [4, 5, 6] :=
  slide_cache_lru 2 [7, 8, 7, 9] [1, 2, 3] [5, 6] 4
    (by decide) (by decide) (by decide) (by decide)

theorem lruGet_over {cache_size : Nat} {s : List Nat} (p : Nat)
    (hover : cache_size < s.length) :
    cache_size < (lruGet cache_size s p).length := by
  rw [lruGet]
  by_cases hp : p ∈ s
  · rw [if_pos hp]
    have he := List.length_erase_of_mem hp
    have hpos : 1 ≤ s.length := List.length_pos.mpr (List.ne_nil_of_mem hp)
    simp only [List.length_append, List.length_cons, List.length_nil, he]
    omega
  · rw [if_neg hp, if_neg (by omega : ¬ s.length = cache_size)]
    simp only [List.length_append, List.length_cons, List.length_nil]
    omega

theorem lruRun_over {cache_size : Nat} :
    ∀ (ps s : List Nat), cache_size < s.length →
      cache_size < (lruRun cache_size s ps).length := by
  intro ps
  induction ps with
  | nil => intro s hs; exact hs
  | cons q ps ih => intro s hs; exact ih _ (lruGet_over q hs)

/-- C10.  The eviction guard in `_SlideCache.get` fires only when the
entry count is exactly `cache_size`.  A full cache pushed past the bound
by the direct `_cache[...]` insertion of the `slide` route (`raw_insert`) is
reachable; from any over-capacity state, a `get` miss inserts without
evicting, and no sequence of further `get` calls ever brings the size
back within the bound. -/
theorem cache_grows_past_bound (cache_size : Nat) (t s ps : List Nat)
    (q p : Nat) (hq : q ∉ t) (hfull : t.length = cache_size)
    (hover : cache_size < s.length) (hp : p ∉ s) :
    cache_size < (raw_insert t q).length ∧
    lruGet cache_size s p = s ++ [p] ∧
    cache_size < (lruRun cache_size s ps).length := by
  refine ⟨?_, ?_, lruRun_over ps s hover⟩
  · rw [raw_insert, if_neg hq]
    simp only [List.length_append, List.length_cons, List.length_nil]
    omega
  · rw [lruGet, if_neg hp, if_neg (by omega : ¬ s.length = cache_size)]

/-- Witness for `cache_grows_past_bound`: bound 1, a full cache `[3]`
pushed over capacity by the route insert, and an over-capacity state
`[10, 20]` that keeps growing. -/
theorem cache_grows_past_bound_witness :
    1 < (raw_insert [3] 4).length ∧
    lruGet 1 [10, 20] 30 = [10, 20] ++ [30] ∧
    1 < (lruRun 1 [10, 20] [40, 50, 10]).length :=
  cache_grows_past_bound 1 [3] [10, 20] [40, 50, 10] 4 30
    (by decide) (by decide) (by decide) (by decide)

/-- A cache entry: a path key and the handle stored for it.  Handles are
identified by a token so that distinct built handles can be told apart. -/
structure Entry where
  path : Nat
  handle : Nat
deriving DecidableEq, Repr

/-- Embedding of `server/main.py` lines 108-113 together with the final
`return slide`: after the new handle `newHandle` has been built outside
the lock, the lock is re-acquired and the insert decision is made against
the cache state `cache` found at that moment (under a concurrent `get`
for the same path it may already contain an entry for `p`).  The result
is the new cache state and the handle value this call returns. -/
def insert_phase (cache_size : Nat) (cache : List Entry) (p : Nat)
    (newHandle : Nat) : List Entry × Nat :=
  if p ∈ cache.map Entry.path then (cache, newHandle)
  else ((if cache.length = cache_size then cache.drop 1 else cache) ++
      [⟨p, newHandle⟩], newHandle)

/-- C4, counterexample.  In the double-miss race, with `⟨1, 100⟩` already
cached and a freshly built handle `200` for path `1`, the code keeps the
cached entry but returns the *new* handle `200` to the caller — not the
already-cached handle `100` as the claim states. -/
theorem double_miss_counterexample :
    insert_phase 30 [⟨1, 100⟩] 1 200 = ([⟨1, 100⟩], 200) ∧
    (200 : Nat) ≠ 100 := by
  exact ⟨by decide, by decide⟩

/-- C4, amended.  When the re-acquired-lock check finds the path already
cached, the newly built handle is not inserted — the cache keeps its
single stored entry for the path unchanged — but the call returns the
newly built handle, not the cached one. -/
theorem double_miss_keeps_single_entry (cache_size : Nat)
    (cache : List Entry) (p newHandle : Nat)
    (h : p ∈ cache.map Entry.path) :
    insert_phase cache_size cache p newHandle = (cache, newHandle) := by
  rw [insert_phase, if_pos h]

/-- Witness for `double_miss_keeps_single_entry`. -/
theorem double_miss_keeps_single_entry_witness :
    insert_phase 5 [⟨2, 7⟩, ⟨3, 8⟩] 3 9 = ([⟨2, 7⟩, ⟨3, 8⟩], 9) :=
  double_miss_keeps_single_entry 5 [⟨2, 7⟩, ⟨3, 8⟩] 3 9 (by decide)

/-!
### Color transform selector, mpp derivation and tile metadata
(`server/main.py`)
-/

/-- An ICC rendering intent (`PIL.ImageCms.Intent`). -/
inductive Intent where
  | perceptual
  | relativeColorimetric
  | saturation
  | absoluteColorimetric
deriving DecidableEq, Repr

/-- An embedded ICC color profile, abstracted to the one piece of data
`_get_transform` reads from it: its declared default rendering intent
(`ImageCms.getDefaultIntent`). -/
structure Profile where
  defaultIntent : Intent
deriving DecidableEq, Repr

/-- The tile post-processing function selected by `_get_transform`:
the identity lambda, the profile-stripping lambda of the `ignore` mode,
or an ICC conversion to sRGB with a rendering intent. -/
inductive Transform where
  | identity
  | stripProfile
  | convert (intent : Intent)
deriving DecidableEq, Repr

/-- Embedding of `_SlideCache._get_transform` (`server/main.py` lines 115-155): with
no profile, the identity; otherwise select by `self.color_mode`, in
source order, raising `ValueError(f"Unknown color mode {mode}")` for any
unrecognized mode. -/
def get_transform (color_mode : String) (color_profile : Option Profile) :
    Except String Transform :=
  match color_profile with
  | none => .ok .identity
  | some profile =>
    if color_mode = "ignore" then .ok .stripProfile
    else if color_mode = "embed" then .ok .identity
    else if color_mode = "default" then .ok (.convert profile.defaultIntent)
    else if color_mode = "absolute-colorimetric" then
      .ok (.convert .absoluteColorimetric)
    else if color_mode = "relative-colorimetric" then
      .ok (.convert .relativeColorimetric)
    else if color_mode = "perceptual" then .ok (.convert .perceptual)
    else if color_mode = "saturation" then .ok (.convert .saturation)
    else .error ("Unknown color mode " ++ color_mode)

/-- The mpp attachment in `_SlideCache.get` (`server/main.py` lines
91-105): both spacings present (`is not None`) gives the millimeter
average converted to microns, one present gives that axis converted,
neither gives the literal `0`. -/
def serverMpp (mm_x mm_y : Option ℚ) : ℚ :=
  match mm_x, mm_y with
  | some x, some y => (x + y) * 10 ^ 3 / 2
  | some x, none => x * 10 ^ 3
  | none, some y => y * 10 ^ 3
  | none, none => 0

/-- Modelled from the spec words of C8 for the refinement comparison:
"average of x/y spacing in millimeters→microns if both present, else
whichever axis is present, else undefined" — undefined rendered as
`none`. -/
def mppSpec (mm_x mm_y : Option ℚ) : Option ℚ :=
  match mm_x, mm_y with
  | some x, some y => some ((x + y) * 1000 / 2)
  | some x, none => some (x * 1000)
  | none, some y => some (y * 1000)
  | none, none => none

/-- The slide metadata read by the miss path of `_SlideCache.get`:
`slide._metadata.get("mm_x")`, `slide._metadata.get("mm_y")` and
`slide.get_icc_profile`. -/
structure SlideMeta where
  mm_x : Option ℚ
  mm_y : Option ℚ
  profile : Option Profile
deriving DecidableEq, Repr

/-- The annotation attached to a slide handle by the miss path of
`_SlideCache.get`. -/
structure AnnotatedHandle where
  mpp : ℚ
  transform : Transform
deriving DecidableEq, Repr

/-- The annotation step of the miss path of `_SlideCache.get`
(`server/main.py` lines 89-106): derive `slide.mpp`, then
`slide.transform = self._get_transform(slide.get_icc_profile)`.  This
runs inside `get`, i.e. while serving a request; a `ValueError` from
`_get_transform` therefore propagates out of `get` (where the routes
catch it and answer 404). -/
def annotate_slide (color_mode : String) (meta : SlideMeta) :
    Except String AnnotatedHandle :=
  match get_transform color_mode meta.profile with
  | .error e => .error e
  | .ok t => .ok ⟨serverMpp meta.mm_x meta.mm_y, t⟩

/-- The `_SlideCache` constructor state set up by `create_app`
(`server/main.py` lines 65-78 and 228-232): `cache_size` and
`color_mode` are stored as given; no validation of the mode happens at
application startup. -/
structure SlideCacheConfig where
  cache_size : Nat
  color_mode : String
deriving DecidableEq, Repr

/-- Embedding of `_SlideCache.__init__` as invoked by `create_app`. -/
def mk_slide_cache (cache_size : Nat) (color_mode : String) :
    SlideCacheConfig :=
  ⟨cache_size, color_mode⟩

/-- A tile image, as far as the transforms inspect it: its pixel data and
its `info` metadata dict (string keys, opaque byte values). -/
structure Tile where
  pixels : List Nat
  info : List (String × Nat)
deriving DecidableEq, Repr

/-- Python `dict.pop(key)` with no default: removes the key, raising
`KeyError` when it is absent. -/
def dict_pop (d : List (String × Nat)) (k : String) :
    Except String (List (String × Nat)) :=
  if k ∈ d.map Prod.fst then .ok (d.filter (fun kv => kv.1 ≠ k))
  else .error "KeyError"

/-- The `ignore`-mode transform `lambda img: img.info.pop("icc_profile")`
(`server/main.py` line 123), applied to a tile as `slide.transform(tile)`
does in the `tile` route (line 290): it mutates only the metadata dict,
never the pixels. -/
def apply_ignore (t : Tile) : Except String Tile :=
  match dict_pop t.info "icc_profile" with
  | .error e => .error e
  | .ok i => .ok ⟨t.pixels, i⟩

/-- C7, counterexample.  With the unrecognized mode `"bogus"`, the cache
(and hence the application) is constructed without complaint at startup,
but the first request that misses the cache on a slide with an embedded
profile runs the annotation step, which reaches the unknown-mode error
branch — the error is a per-request failure, not a startup failure. -/
theorem unknown_mode_counterexample :
    mk_slide_cache 30 "bogus" = ⟨30, "bogus"⟩ ∧
    annotate_slide "bogus" ⟨none, none, some ⟨Intent.perceptual⟩⟩ =
      .error "Unknown color mode bogus" := by
  exact ⟨rfl, rfl⟩

/-- C7, amended.  An unknown `color_mode` is not rejected at startup
(`create_app` stores it unvalidated); the unknown-mode error branch is
reached during request handling, on the first cache miss for a slide
carrying an embedded color profile, and with no embedded profile the
unknown mode is silently accepted (identity transform). -/
theorem unknown_mode_is_per_request (mode : String) (p : Profile)
    (mx my : Option ℚ) (n : Nat)
    (h : mode ∉ (["ignore", "embed", "default", "absolute-colorimetric",
      "relative-colorimetric", "perceptual", "saturation"] : List String)) :
    mk_slide_cache n mode = ⟨n, mode⟩ ∧
    annotate_slide mode ⟨mx, my, some p⟩ =
      .error ("Unknown color mode " ++ mode) ∧
    annotate_slide mode ⟨mx, my, none⟩ =
      .ok ⟨serverMpp mx my, .identity⟩ := by
  simp only [List.mem_cons, List.not_mem_nil, or_false, not_or] at h
  obtain ⟨h1, h2, h3, h4, h5, h6, h7⟩ := h
  refine ⟨rfl, ?_, rfl⟩
  simp [annotate_slide, get_transform, h1, h2, h3, h4, h5, h6, h7]

/-- Witness for `unknown_mode_is_per_request` at mode `"bogus"`. -/
theorem unknown_mode_is_per_request_witness :
    mk_slide_cache 30 "bogus" = ⟨30, "bogus"⟩ ∧
    annotate_slide "bogus" ⟨some 1, none, some ⟨Intent.saturation⟩⟩ =
      .error ("Unknown color mode " ++ "bogus") ∧
    annotate_slide "bogus" ⟨some 1, none, none⟩ =
      .ok ⟨serverMpp (some 1) none, .identity⟩ :=
  unknown_mode_is_per_request "bogus" ⟨Intent.saturation⟩ (some 1) none 30
    (by decide)

/-- C8, counterexample.  When neither `mm_x` nor `mm_y` is present, the
derived mpp of the handle is the concrete number `0` — a defined sentinel —
while the claim (and `mppSpec`, its rendering) says the value is
undefined. -/
theorem mpp_neither_counterexample :
    serverMpp none none = 0 ∧ mppSpec none none = none := by
  exact ⟨rfl, rfl⟩

/-- C8, amended.  The derived mpp of the slide handle equals the average of
the x and y spacings converted from millimeters to microns when both are
present, else the single present axis so converted, and is the sentinel
`0` (not undefined) when neither spacing is present; on the three
present cases it refines the optional value of the spec. -/
theorem server_mpp_cases (x y : ℚ) (mx my : Option ℚ)
    (h : mx ≠ none ∨ my ≠ none) :
    serverMpp (some x) (some y) = (x * 1000 + y * 1000) / 2 ∧
    serverMpp (some x) none = x * 1000 ∧
    serverMpp none (some y) = y * 1000 ∧
    serverMpp none none = 0 ∧
    mppSpec mx my = some (serverMpp mx my) := by
  refine ⟨by rw [serverMpp]; norm_num; ring, by rw [serverMpp]; norm_num,
    by rw [serverMpp]; norm_num, rfl, ?_⟩
  match mx, my with
  | some a, some b => rw [mppSpec, serverMpp]; norm_num
  | some a, none => rw [mppSpec, serverMpp]; norm_num
  | none, some b => rw [mppSpec, serverMpp]; norm_num
  | none, none => simp at h

/-- Witness for `server_mpp_cases` at `x = 1`, `y = 2`,
`mx = some 3`, `my = none`. -/
theorem server_mpp_cases_witness :
    serverMpp (some 1) (some 2) = ((1 : ℚ) * 1000 + 2 * 1000) / 2 ∧
    serverMpp (some 1) none = (1 : ℚ) * 1000 ∧
    serverMpp none (some 2) = (2 : ℚ) * 1000 ∧
    serverMpp none none = 0 ∧
    mppSpec (some 3) none = some (serverMpp (some 3) none) :=
  server_mpp_cases 1 2 (some 3) none (by decide)

/-- C9, counterexample.  With `color_mode = "ignore"` and an embedded
profile present, the selected transform is the profile-stripping lambda;
but applied to a tile whose `info` dict carries no `"icc_profile"` key it
raises `KeyError` instead of returning a profile-free tile — the universal
"any tile" of the claim fails. -/
theorem ignore_missing_key_counterexample :
    get_transform "ignore" (some ⟨Intent.perceptual⟩) = .ok .stripProfile ∧
    apply_ignore ⟨[1, 2, 3], []⟩ = .error "KeyError" := by
  exact ⟨rfl, rfl⟩

/-- C9, amended.  With `color_mode = "ignore"` and an embedded profile
present, the selected transform applied to any tile that carries
`"icc_profile"` metadata removes that metadata and leaves the
pixel values of the tile unchanged; on a tile without the metadata key it raises
`KeyError` (surfacing as a request failure). -/
theorem ignore_transform_strips (t : Tile) (p : Profile)
    (h : "icc_profile" ∈ t.info.map Prod.fst) :
    get_transform "ignore" (some p) = .ok .stripProfile ∧
    apply_ignore t =
      .ok ⟨t.pixels, t.info.filter (fun kv => kv.1 ≠ "icc_profile")⟩ ∧
    "icc_profile" ∉
      (t.info.filter (fun kv => kv.1 ≠ "icc_profile")).map Prod.fst := by
  refine ⟨rfl, ?_, ?_⟩
  · rw [apply_ignore, dict_pop, if_pos h]
  · simp only [List.mem_map, List.mem_filter]
    rintro ⟨kv, ⟨-, hne⟩, hk⟩
    simp only [decide_eq_true_eq] at hne
    exact hne hk

/-- Witness for `ignore_transform_strips` on a tile with pixels `[5]`
and an embedded profile entry. -/
theorem ignore_transform_strips_witness :
    get_transform "ignore" (some ⟨Intent.saturation⟩) = .ok .stripProfile ∧
    apply_ignore ⟨[5], [("icc_profile", 9)]⟩ =
      .ok ⟨[5], ([("icc_profile", 9)] :
          List (String × Nat)).filter (fun kv => kv.1 ≠ "icc_profile")⟩ ∧
    "icc_profile" ∉
      (([("icc_profile", 9)] :
          List (String × Nat)).filter (fun kv => kv.1 ≠ "icc_profile")).map
        Prod.fst :=
  ignore_transform_strips ⟨[5], [("icc_profile", 9)]⟩ ⟨Intent.saturation⟩
    (by decide)

end DeepZoom
